import Mathlib

/-!
Verification of the ingredient parser in `parser_server.py`.

Strings are modelled as `List Char` (ASCII scope, matching the inputs the
server's normalization rules are written for).  Python's `str.strip`,
`str.lower`, substring `in`, and the two regular expressions of
`_normalize_quantity_and_name` are embedded as executable Lean functions.
The Flask route `parse_route` is embedded as a pure function over the
request payload and the outcomes of the two fallible external calls
(extractor loading and extraction), which the Python code surfaces as
exceptions.
-/

set_option autoImplicit false

namespace MistClon

/-- Python `str.isspace` characters relevant to `str.strip` (ASCII range). -/
def pyIsSpace (c : Char) : Bool :=
  c == ' ' || c == '\t' || c == '\n' || c == '\r' || c == '\x0b' || c == '\x0c'

/-- Python `str.strip()`: drop whitespace from both ends. -/
def pyStrip (l : List Char) : List Char :=
  ((l.dropWhile pyIsSpace).reverse.dropWhile pyIsSpace).reverse

/-- Upper-to-lower ASCII letter table, modelling Python `str.lower` on ASCII. -/
def lowerPairs : List (Char × Char) :=
  [('A','a'),('B','b'),('C','c'),('D','d'),('E','e'),('F','f'),('G','g'),
   ('H','h'),('I','i'),('J','j'),('K','k'),('L','l'),('M','m'),('N','n'),
   ('O','o'),('P','p'),('Q','q'),('R','r'),('S','s'),('T','t'),('U','u'),
   ('V','v'),('W','w'),('X','x'),('Y','y'),('Z','z')]

/-- Lower-case one character (Python `str.lower`, ASCII scope). -/
def pyToLower (c : Char) : Char :=
  match lowerPairs.find? (fun p => p.1 == c) with
  | some p => p.2
  | none => c

/-- Python `str.lower()` on a character list. -/
def pyLower (l : List Char) : List Char := l.map pyToLower

/-- Python substring containment `pat in l` (contiguous occurrence,
including the empty pattern). -/
def isSubstr (pat : List Char) : List Char → Bool
  | [] => pat.isEmpty
  | c :: t => pat.isPrefixOf (c :: t) || isSubstr pat t

/-- The word "half", as scanned for by line 63 of the source. -/
def halfL : List Char := "half".toList

/-- The word "quarter", as scanned for by line 63 of the source. -/
def quarterL : List Char := "quarter".toList

/-- The hard-coded word "toast" from line 71 of the source. -/
def toastL : List Char := "toast".toList

/-- The numeric fraction substituted for "half". -/
def fracHalf : List Char := "1/2".toList

/-- The numeric fraction substituted for "quarter". -/
def fracQuarter : List Char := "1/4".toList

/-- Helper for the article regex: after `(?:a|an)` and the mandatory
whitespace, `(.*)$` must consume the rest of the line, so the greedy
whitespace run is skipped and the remainder may not contain a newline
(`.` does not match `\x5Cn` and the input is stripped, so `$` only
matches at the very end). -/
def restAfterWs (l : List Char) : Option (List Char) :=
  if (l.dropWhile pyIsSpace).contains '\n' then none
  else some (l.dropWhile pyIsSpace)

/-- Model of `re.match(r"^(?:a|an)(?:\s+(.*))?$", lqty)` at line 56 of the
source: `some r` is a match whose group 1 is `r` (with `[]` standing for
both an absent and an empty group, which the code treats identically), and
`none` is no match. -/
def matchArticle (l : List Char) : Option (List Char) :=
  if l = ['a'] then some []
  else if l = ['a', 'n'] then some []
  else
    match l with
    | 'a' :: 'n' :: c :: t => if pyIsSpace c then restAfterWs (c :: t) else none
    | 'a' :: c :: t => if pyIsSpace c then restAfterWs (c :: t) else none
    | _ => none

/-- Build `"1" + (f" {rest}" if rest else "")` from line 59 of the source. -/
def oneRest (r : List Char) : List Char :=
  if r = [] then ['1'] else '1' :: ' ' :: r

/-- Lines 55-60 of the source: the article-to-numeral rewrite applied to the
stripped quantity text. -/
def articleStage (q0 : List Char) : List Char :=
  match matchArticle (pyLower q0) with
  | some r => oneRest r
  | none => q0

/-- The character class `[a-zA-Z\x2D]` of the fraction regex. -/
def isWordChar (c : Char) : Bool :=
  ('a' ≤ c && c ≤ 'z') || ('A' ≤ c && c ≤ 'Z') || c == '-'

/-- Model of `\s*([a-zA-Z\x2D]+)`: skip the whitespace run, then require a
non-empty maximal run of word characters, which is the captured group. -/
def grabWord (m : List Char) : Option (List Char) :=
  if (m.dropWhile pyIsSpace).takeWhile isWordChar = [] then none
  else some ((m.dropWhile pyIsSpace).takeWhile isWordChar)

/-- Try one literal alternative of `(?:an|a|the)?` and continue with
`\s*([a-zA-Z\x2D]+)` after it. -/
def tryWord (a m : List Char) : Option (List Char) :=
  if a.isPrefixOf m then grabWord (m.drop a.length) else none

/-- The regex tail `(?:an|a|the)?\s*([a-zA-Z\x2D]+)` with Python's
alternation order and backtracking: `an`, then `a`, then `the`, then the
empty alternative. -/
def afterArticle (m : List Char) : Option (List Char) :=
  match tryWord ("an".toList) m with
  | some r => some r
  | none =>
    match tryWord ("a".toList) m with
    | some r => some r
    | none =>
      match tryWord ("the".toList) m with
      | some r => some r
      | none => grabWord m

/-- After a fraction word, `\s+` requires at least one whitespace character;
the greedy run is consumed and the tail of the regex follows. -/
def contAfterFrac : List Char → Option (List Char)
  | [] => none
  | c :: t => if pyIsSpace c then afterArticle (t.dropWhile pyIsSpace) else none

/-- Model of `re.search(r"(?:half|quarter)\s+(?:an|a|the)?\s*([a-zA-Z\x2D]+)", lqty)`
at line 68 of the source: scan start positions left to right, and at each
position try the fraction words and the continuation. Returns group 1. -/
def fracSearch : List Char → Option (List Char)
  | [] => none
  | c :: t =>
    match (if halfL.isPrefixOf (c :: t) then contAfterFrac (t.drop 3)
           else if quarterL.isPrefixOf (c :: t) then contAfterFrac (t.drop 6)
           else none) with
    | some r => some r
    | none => fracSearch t

/-- The fraction chosen at lines 64-67 of the source (`lqty` is `pyLower q`). -/
def fracOf (q : List Char) : List Char :=
  if isSubstr halfL (pyLower q) then fracHalf else fracQuarter

/-- Lines 62-77 of the source: the fraction-word normalization applied to
the (possibly article-rewritten) quantity text, returning the new
(name, quantity) pair.  The local `frac` of the Python code is `fracOf q`. -/
def fracStage (name q : List Char) : List Char × List Char :=
  if isSubstr halfL (pyLower q) || isSubstr quarterL (pyLower q) then
    match fracSearch (pyLower q) with
    | some referred =>
      if isSubstr toastL (pyLower name) && isSubstr referred (pyLower name) then
        (referred, fracOf q)
      else
        (name, fracOf q ++ ' ' :: referred)
    | none => (name, fracOf q)
  else (name, q)

/-- Model of `_normalize_quantity_and_name` (lines 50-79 of the source).
A `none` quantity models Python `None`; `(qty_text or "").strip()` maps it
to the empty string. -/
def normalize_quantity_and_name (name : List Char) (qty? : Option (List Char)) :
    List Char × List Char :=
  (pyStrip (fracStage name (articleStage (pyStrip (qty?.getD [])))).1,
   pyStrip (fracStage name (articleStage (pyStrip (qty?.getD [])))).2)

/-- A raw field of one extracted item: missing / `None`, a string, or a
dict whose optional `"text"` entry is a string. -/
inductive RawField where
  | absent : RawField
  | strv : List Char → RawField
  | dictv : Option (List Char) → RawField

/-- One raw item of the extractor output. -/
structure RawItem where
  nameF : RawField
  qtyF : RawField

/-- `item.get(...)` followed by the dict unwrapping of lines 106-109. -/
def fieldText : RawField → Option (List Char)
  | RawField.absent => none
  | RawField.strv s => some s
  | RawField.dictv t => t

/-- Lines 103-114 of the source: drop items whose name is falsy
(`None` or the empty string), strip the name, and normalize the pair. -/
def processItem (it : RawItem) : Option (List Char × List Char) :=
  match fieldText it.nameF with
  | none => none
  | some n =>
    if n = [] then none
    else some (normalize_quantity_and_name (pyStrip n) (fieldText it.qtyF))

/-- The dedup key `p["name"].strip().lower()` of line 119. -/
def keyOf (p : List Char × List Char) : List Char := pyLower (pyStrip p.1)

/-- Replace the (unique) stored entry with key `k` by `p` when the stored
quantity is empty and `p`'s is not (lines 123-125 of the source). -/
def updateKey (k : List Char) (p : List Char × List Char) :
    List (List Char × List Char) → List (List Char × List Char)
  | [] => []
  | q :: t =>
    if keyOf q = k then (if q.2 = [] ∧ p.2 ≠ [] then p else q) :: t
    else q :: updateKey k p t

/-- One step of the merge loop of lines 118-125; the insertion-ordered dict
is modelled by an association list. -/
def mergeStep (acc : List (List Char × List Char)) (p : List Char × List Char) :
    List (List Char × List Char) :=
  match acc.find? (fun q => decide (keyOf q = keyOf p)) with
  | some _ => updateKey (keyOf p) p acc
  | none => acc ++ [p]

/-- The whole merge loop: `list(merged.values())` of line 127. -/
def mergeAll (ps : List (List Char × List Char)) : List (List Char × List Char) :=
  ps.foldl mergeStep []

/-- Model of `parse_ingredients` (lines 82-127) as a function of the raw
extractor output. -/
def parse_ingredients (items : List RawItem) : List (List Char × List Char) :=
  mergeAll (items.filterMap processItem)

/-- Declarative per-key merge rule, following the words of the spec: the
stored entry is replaced by a later same-key entry exactly when the stored
quantity is empty and the new one is not. -/
def chosenFrom (cur : List Char × List Char) :
    List (List Char × List Char) → List Char × List Char
  | [] => cur
  | p :: t =>
    if keyOf p = keyOf cur ∧ cur.2 = [] ∧ p.2 ≠ [] then chosenFrom p t
    else chosenFrom cur t

/-- Declarative winner for key `k`: the first occurrence seeds, later
occurrences are folded in by `chosenFrom`. -/
def chosen (k : List Char) :
    List (List Char × List Char) → Option (List Char × List Char)
  | [] => none
  | p :: t => if keyOf p = k then some (chosenFrom p t) else chosen k t

/-- First-seen accumulator for key order. -/
def seenFold (acc : List (List Char)) (k : List Char) : List (List Char) :=
  if k ∈ acc then acc else acc ++ [k]

/-- The distinct keys of a sequence, in order of first appearance. -/
def firstKeys (l : List (List Char)) : List (List Char) := l.foldl seenFold []

/-- A JSON response body: either an error object or an ingredient list. -/
inductive RespBody where
  | errMsg : List Char → RespBody
  | ingredients : List (List Char × List Char) → RespBody

/-- An HTTP response: status code and JSON body. -/
structure HttpResponse where
  status : Nat
  body : RespBody

/-- The JSON key `"text"`. -/
def textKey : List Char := "text".toList

/-- An ASCII apostrophe. -/
def quoteC : Char := '\x27'

/-- The 400 body of line 139 of the source. -/
def missingTextMsg : List Char :=
  "missing ".toList ++ quoteC :: "text".toList ++ quoteC :: " in JSON body".toList

/-- Whether the payload dict has a `"text"` key. -/
def hasTextKey (d : List (List Char × List Char)) : Bool :=
  d.any (fun kv => decide (kv.1 = textKey))

/-- Model of the `/parse` route (lines 135-156).  `payload` is the result
of `request.get_json(silent=True)` restricted to JSON objects (an
association list) or `none` for an unparseable body; `loadRes` is the
outcome of `load_extractor`, and `extractRes` the outcome of the
extraction call inside `parse_ingredients`, both of which the Python code
observes only through success or a raised exception message. -/
def parse_route (payload : Option (List (List Char × List Char)))
    (loadRes : Except (List Char) Unit)
    (extractRes : Except (List Char) (List RawItem)) : HttpResponse :=
  match payload with
  | none => ⟨400, RespBody.errMsg missingTextMsg⟩
  | some d =>
    if d = [] || !(hasTextKey d) then ⟨400, RespBody.errMsg missingTextMsg⟩
    else
      match loadRes with
      | Except.error e => ⟨500, RespBody.errMsg e⟩
      | Except.ok _ =>
        match extractRes with
        | Except.error e => ⟨500, RespBody.errMsg ("parse failed: ".toList ++ e)⟩
        | Except.ok items => ⟨200, RespBody.ingredients (parse_ingredients items)⟩

/-! Helper lemmas: characters and stripping. -/

theorem pyIsSpace_pyToLower (c : Char) : pyIsSpace (pyToLower c) = pyIsSpace c := by
  unfold pyToLower
  cases h : lowerPairs.find? (fun p => p.1 == c) with
  | none => rfl
  | some p =>
    have hp : p ∈ lowerPairs := List.mem_of_find?_eq_some h
    have hb := List.find?_some h
    have hc : p.1 = c := by simpa using hb
    have key : ∀ q ∈ lowerPairs, pyIsSpace q.2 = false ∧ pyIsSpace q.1 = false := by decide
    rw [← hc, (key p hp).1, (key p hp).2]

theorem isWordChar_not_space (c : Char) (h : isWordChar c = true) : pyIsSpace c = false := by
  by_contra hs
  rw [Bool.not_eq_false] at hs
  simp only [pyIsSpace, Bool.or_eq_true, beq_iff_eq] at hs
  rcases hs with ((((h1 | h1) | h1) | h1) | h1) | h1 <;> subst h1 <;>
    exact absurd h (by decide)

theorem head?_dropWhile_false {α : Type} (p : α → Bool) (l : List α) (c : α)
    (h : (l.dropWhile p).head? = some c) : p c = false := by
  have hd := List.head?_dropWhile_not p l
  rw [h] at hd
  exact hd

theorem dropWhile_eq_self {α : Type} (p : α → Bool) (l : List α)
    (h : ∀ c, l.head? = some c → p c = false) : l.dropWhile p = l := by
  cases l with
  | nil => rfl
  | cons c t =>
    rw [List.dropWhile_cons, h c rfl]
    simp

theorem getLast?_of_suffix {α : Type} {l₁ l₂ : List α} (h : l₂ <:+ l₁) (hne : l₂ ≠ []) :
    l₁.getLast? = l₂.getLast? := by
  obtain ⟨t, rfl⟩ := h
  rw [List.getLast?_append]
  cases h2 : l₂.getLast? with
  | none => exact absurd (List.getLast?_eq_none_iff.mp h2) hne
  | some c => rfl

theorem mem_of_getLast?_eq_some {α : Type} {l : List α} {c : α} (h : l.getLast? = some c) :
    c ∈ l := by
  rw [List.getLast?_eq_head?_reverse] at h
  have := List.mem_of_mem_head? (l := l.reverse) (by rw [h]; exact rfl)
  exact List.mem_reverse.mp this

theorem pyStrip_head (l : List Char) (c : Char) (h : (pyStrip l).head? = some c) :
    pyIsSpace c = false := by
  unfold pyStrip at h
  set A := l.dropWhile pyIsSpace with hA
  set B := A.reverse.dropWhile pyIsSpace with hB
  rw [List.head?_reverse] at h
  have hBne : B ≠ [] := by
    intro hnil
    rw [hnil] at h
    exact Option.noConfusion h
  have hsuf : B <:+ A.reverse := by rw [hB]; exact List.dropWhile_suffix pyIsSpace
  have h2 : A.reverse.getLast? = some c := by rw [getLast?_of_suffix hsuf hBne]; exact h
  rw [List.getLast?_eq_head?_reverse, List.reverse_reverse] at h2
  exact head?_dropWhile_false pyIsSpace l c h2

theorem pyStrip_last (l : List Char) (c : Char) (h : (pyStrip l).getLast? = some c) :
    pyIsSpace c = false := by
  unfold pyStrip at h
  rw [List.getLast?_eq_head?_reverse, List.reverse_reverse] at h
  exact head?_dropWhile_false pyIsSpace (l.dropWhile pyIsSpace).reverse c h

theorem pyStrip_eq_self (l : List Char)
    (h1 : ∀ c, l.head? = some c → pyIsSpace c = false)
    (h2 : ∀ c, l.getLast? = some c → pyIsSpace c = false) : pyStrip l = l := by
  unfold pyStrip
  rw [dropWhile_eq_self pyIsSpace l h1]
  rw [dropWhile_eq_self pyIsSpace l.reverse (fun c hc => by
    rw [List.head?_reverse] at hc
    exact h2 c hc)]
  exact List.reverse_reverse l

theorem pyStrip_idem (l : List Char) : pyStrip (pyStrip l) = pyStrip l :=
  pyStrip_eq_self (pyStrip l) (pyStrip_head l) (pyStrip_last l)

theorem pyStrip_of_no_space (l : List Char) (h : ∀ c ∈ l, pyIsSpace c = false) :
    pyStrip l = l :=
  pyStrip_eq_self l
    (fun c hc => h c (List.mem_of_mem_head? (by rw [hc]; exact rfl)))
    (fun c hc => h c (mem_of_getLast?_eq_some hc))

/-! Helper lemmas: the two regex models. -/

theorem grabWord_spec (m r : List Char) (h : grabWord m = some r) :
    r ≠ [] ∧ ∀ c ∈ r, isWordChar c = true := by
  unfold grabWord at h
  split at h
  · exact Option.noConfusion h
  · next hne =>
    obtain rfl : _ = r := Option.some.inj h
    exact ⟨hne, fun c hc => List.mem_takeWhile_imp hc⟩

theorem tryWord_spec (a m r : List Char) (h : tryWord a m = some r) :
    grabWord (m.drop a.length) = some r := by
  unfold tryWord at h
  split at h
  · exact h
  · exact Option.noConfusion h

theorem afterArticle_spec (m r : List Char) (h : afterArticle m = some r) :
    ∃ m', grabWord m' = some r := by
  unfold afterArticle at h
  cases h1 : tryWord ("an".toList) m with
  | some r1 =>
    simp only [h1, Option.some.injEq] at h
    exact ⟨_, h ▸ tryWord_spec _ _ _ h1⟩
  | none =>
    simp only [h1] at h
    cases h2 : tryWord ("a".toList) m with
    | some r1 =>
      simp only [h2, Option.some.injEq] at h
      exact ⟨_, h ▸ tryWord_spec _ _ _ h2⟩
    | none =>
      simp only [h2] at h
      cases h3 : tryWord ("the".toList) m with
      | some r1 =>
        simp only [h3, Option.some.injEq] at h
        exact ⟨_, h ▸ tryWord_spec _ _ _ h3⟩
      | none =>
        simp only [h3] at h
        exact ⟨m, h⟩

theorem contAfterFrac_spec (l r : List Char) (h : contAfterFrac l = some r) :
    ∃ m', grabWord m' = some r := by
  cases l with
  | nil => exact Option.noConfusion h
  | cons c t =>
    have h' : (if pyIsSpace c = true then afterArticle (t.dropWhile pyIsSpace)
        else none) = some r := h
    by_cases hc : pyIsSpace c = true
    · rw [if_pos hc] at h'
      exact afterArticle_spec _ _ h'
    · rw [if_neg hc] at h'
      exact Option.noConfusion h'

theorem fracSearch_spec (l r : List Char) (h : fracSearch l = some r) :
    r ≠ [] ∧ ∀ c ∈ r, isWordChar c = true := by
  induction l with
  | nil => exact Option.noConfusion h
  | cons c t ih =>
    unfold fracSearch at h
    split at h
    · next heq =>
      obtain rfl : _ = r := Option.some.inj h
      split at heq
      · obtain ⟨m', hm⟩ := contAfterFrac_spec _ _ heq
        exact grabWord_spec _ _ hm
      · split at heq
        · obtain ⟨m', hm⟩ := contAfterFrac_spec _ _ heq
          exact grabWord_spec _ _ hm
        · exact Option.noConfusion heq
    · exact ih h

theorem fracSearch_no_space (l r : List Char) (h : fracSearch l = some r) :
    pyStrip r = r := by
  obtain ⟨_, hw⟩ := fracSearch_spec l r h
  exact pyStrip_of_no_space r (fun c hc => isWordChar_not_space c (hw c hc))

theorem matchArticle_suffix (l r : List Char) (h : matchArticle l = some r) :
    r = [] ∨ r <:+ l := by
  unfold matchArticle at h
  split at h
  · exact Or.inl (Option.some.inj h).symm
  · split at h
    · exact Or.inl (Option.some.inj h).symm
    · split at h
      · next c t =>
        split at h
        · unfold restAfterWs at h
          split at h
          · exact Option.noConfusion h
          · obtain rfl : _ = r := Option.some.inj h
            refine Or.inr (List.IsSuffix.trans (List.dropWhile_suffix pyIsSpace) ?_)
            exact ⟨['a', 'n'], rfl⟩
        · exact Option.noConfusion h
      · next c t =>
        split at h
        · unfold restAfterWs at h
          split at h
          · exact Option.noConfusion h
          · obtain rfl : _ = r := Option.some.inj h
            refine Or.inr (List.IsSuffix.trans (List.dropWhile_suffix pyIsSpace) ?_)
            exact ⟨['a'], rfl⟩
        · exact Option.noConfusion h
      · exact Option.noConfusion h

theorem matchArticle_rest_strip (y r : List Char)
    (h : matchArticle (pyLower (pyStrip y)) = some r) :
    pyStrip (oneRest r) = oneRest r := by
  by_cases hr : r = []
  · subst hr; decide
  · have hone : oneRest r = '1' :: ' ' :: r := by unfold oneRest; rw [if_neg hr]
    cases hgl : r.getLast? with
    | none => exact absurd (List.getLast?_eq_none_iff.mp hgl) hr
    | some d =>
      have hd : pyIsSpace d = false := by
        rcases matchArticle_suffix _ _ h with h0 | hsuf
        · exact absurd h0 hr
        · have hL : (pyLower (pyStrip y)).getLast? = some d := by
            rw [getLast?_of_suffix hsuf hr]; exact hgl
          rw [pyLower, List.getLast?_map] at hL
          cases hgl0 : (pyStrip y).getLast? with
          | none => rw [hgl0] at hL; exact Option.noConfusion hL
          | some d0 =>
            rw [hgl0] at hL
            obtain rfl : pyToLower d0 = d := Option.some.inj hL
            rw [pyIsSpace_pyToLower]
            exact pyStrip_last y d0 hgl0
      rw [hone]
      apply pyStrip_eq_self
      · intro c hc
        obtain rfl : '1' = c := Option.some.inj hc
        decide
      · intro c hc
        have hl : ('1' :: ' ' :: r).getLast? = some d := by
          rw [show ('1' :: ' ' :: r) = ['1', ' '] ++ r from rfl, List.getLast?_append, hgl]
          rfl
        rw [hl] at hc
        obtain rfl : d = c := Option.some.inj hc
        exact hd

theorem pyStrip_frac_append (frac r : List Char)
    (hf : frac = fracHalf ∨ frac = fracQuarter)
    (hrne : r ≠ []) (hw : ∀ c ∈ r, isWordChar c = true) :
    pyStrip (frac ++ ' ' :: r) = frac ++ ' ' :: r := by
  apply pyStrip_eq_self
  · intro c hc
    rcases hf with rfl | rfl <;>
      (obtain rfl : '1' = c := Option.some.inj hc; decide)
  · intro c hc
    cases hgl : r.getLast? with
    | none => exact absurd (List.getLast?_eq_none_iff.mp hgl) hrne
    | some d =>
      have h1 : (frac ++ ' ' :: r).getLast? = some d := by
        rw [List.getLast?_append,
          show (' ' :: r) = [' '] ++ r from rfl, List.getLast?_append, hgl]
        rfl
      rw [h1] at hc
      obtain rfl : d = c := Option.some.inj hc
      exact isWordChar_not_space _ (hw _ (mem_of_getLast?_eq_some hgl))

/-! Claim C1: the spec's fraction rule, without the hard-coded "toast"
condition of line 71, fails; the amended rule keeps the extra condition. -/

/-- C1 counterexample: the claim states that normalizing name "avocado" with
quantity "half an avocado" yields quantity exactly "1/2" with the name
unchanged; the code instead yields quantity "1/2 avocado", because the
rename-and-exact-fraction branch additionally requires "toast" to occur in
the lower-cased name. -/
theorem c1_counterexample :
    ¬ (normalize_quantity_and_name ("avocado".toList) (some ("half an avocado".toList))
      = ("avocado".toList, "1/2".toList)) := by decide

/-- C1 amended: for every pair whose quantity text (after the article rule,
whose output is `q1`) contains "half" or "quarter" and where the fraction
regex identifies a noun phrase `r`: if "toast" is a substring of the
lower-cased name AND `r` is a substring of the lower-cased name, the name
is replaced by `r` and the quantity becomes exactly the fraction; otherwise
the quantity becomes "fraction + noun phrase" and the name is only trimmed. -/
theorem c1_fraction_rule_amended (name : List Char) (qty? : Option (List Char))
    (q1 r : List Char)
    (hq1 : articleStage (pyStrip (qty?.getD [])) = q1)
    (hh : (isSubstr halfL (pyLower q1) || isSubstr quarterL (pyLower q1)) = true)
    (hr : fracSearch (pyLower q1) = some r) :
    normalize_quantity_and_name name qty? =
      (if (isSubstr toastL (pyLower name) && isSubstr r (pyLower name)) = true then
        (r, fracOf q1)
      else
        (pyStrip name, fracOf q1 ++ ' ' :: r)) := by
  subst hq1
  obtain ⟨hrne, hw⟩ := fracSearch_spec _ _ hr
  have hstrip_r : pyStrip r = r := fracSearch_no_space _ _ hr
  have hfracstrip : pyStrip (fracOf (articleStage (pyStrip (qty?.getD []))))
      = fracOf (articleStage (pyStrip (qty?.getD []))) := by
    unfold fracOf
    by_cases hhalf : isSubstr halfL (pyLower (articleStage (pyStrip (qty?.getD [])))) = true
    · rw [if_pos hhalf]; decide
    · rw [if_neg hhalf]; decide
  unfold normalize_quantity_and_name fracStage
  rw [hh, if_pos rfl]
  simp only [hr]
  by_cases ht : (isSubstr toastL (pyLower name) && isSubstr r (pyLower name)) = true
  · rw [if_pos ht, if_pos ht]
    show (pyStrip r, pyStrip (fracOf (articleStage (pyStrip (qty?.getD [])))))
      = (r, fracOf (articleStage (pyStrip (qty?.getD []))))
    rw [hstrip_r, hfracstrip]
  · rw [if_neg ht, if_neg ht]
    show (pyStrip name, pyStrip (fracOf (articleStage (pyStrip (qty?.getD []))) ++ ' ' :: r))
      = (pyStrip name, fracOf (articleStage (pyStrip (qty?.getD []))) ++ ' ' :: r)
    have : pyStrip (fracOf (articleStage (pyStrip (qty?.getD []))) ++ ' ' :: r)
        = fracOf (articleStage (pyStrip (qty?.getD []))) ++ ' ' :: r := by
      apply pyStrip_frac_append _ _ _ hrne hw
      unfold fracOf
      by_cases hhalf : isSubstr halfL (pyLower (articleStage (pyStrip (qty?.getD [])))) = true
      · rw [if_pos hhalf]; exact Or.inl rfl
      · rw [if_neg hhalf]; exact Or.inr rfl
    rw [this]

/-- C1 amended witness: name "toast" with quantity "half a toast" exercises
the rename branch and yields name "toast", quantity exactly "1/2". -/
theorem c1_fraction_rule_amended_witness :
    (isSubstr halfL (pyLower ("half a toast".toList)) ||
      isSubstr quarterL (pyLower ("half a toast".toList))) = true ∧
    normalize_quantity_and_name ("toast".toList) (some ("half a toast".toList))
      = ("toast".toList, "1/2".toList) :=
  ⟨by decide, by
    rw [c1_fraction_rule_amended ("toast".toList) (some ("half a toast".toList))
      ("half a toast".toList) ("toast".toList) (by decide) (by decide) (by decide)]
    decide⟩

/-! Claim C2: the spec expects the rename to fire on name "toast" with
quantity "half a slice of toast"; "slice" is not a substring of "toast",
so the rename does not fire. -/

/-- C2 counterexample: the claimed result (name "slice", quantity "1/2")
is not what the code computes. -/
theorem c2_counterexample :
    ¬ (normalize_quantity_and_name ("toast".toList) (some ("half a slice of toast".toList))
      = ("slice".toList, "1/2".toList)) := by decide

/-- C2 amended: normalizing name "toast" with quantity "half a slice of
toast" returns the name "toast" unchanged and the quantity "1/2 slice"
(the noun phrase "slice" is not a substring of "toast", so only the
quantity is rewritten). -/
theorem c2_toast_slice_amended :
    normalize_quantity_and_name ("toast".toList) (some ("half a slice of toast".toList))
      = ("toast".toList, "1/2 slice".toList) := by decide

/-! Claim C3: the article rule. The rewrite itself is as claimed, but the
fraction rule can rewrite the result further, so the claim as stated fails
on quantity "a half". -/

/-- C3 counterexample: quantity "a half" is "a" followed by the noun phrase
"half", but the normalized quantity is "1/2" (the fraction rule fires on
the rewritten text), not "1 half" as the claim states. -/
theorem c3_counterexample :
    ¬ (normalize_quantity_and_name ("x".toList) (some ("a half".toList))
      = ("x".toList, "1 half".toList)) := by decide

/-- C3 amended: if the trimmed quantity text, case-insensitively, is "a" or
"an" optionally followed by a noun phrase `r` (the group of the article
regex, lower-cased), and the rewritten text "1 r" contains neither "half"
nor "quarter", the normalizer rewrites the quantity to "1" followed by the
noun phrase, trimming the name. -/
theorem c3_article_rule_amended (name : List Char) (qty? : Option (List Char))
    (r : List Char)
    (hm : matchArticle (pyLower (pyStrip (qty?.getD []))) = some r)
    (hh : (isSubstr halfL (pyLower (oneRest r)) ||
           isSubstr quarterL (pyLower (oneRest r))) = false) :
    normalize_quantity_and_name name qty? = (pyStrip name, oneRest r) := by
  have ha : articleStage (pyStrip (qty?.getD [])) = oneRest r := by
    unfold articleStage; rw [hm]
  unfold normalize_quantity_and_name fracStage
  rw [ha, hh, if_neg (by decide : ¬ (false = true))]
  rw [matchArticle_rest_strip _ _ hm]

/-- C3 amended witness: "a slice" becomes "1 slice" and "An Apple" becomes
"1 apple" (the match is case-insensitive and the rewrite lower-cases). -/
theorem c3_article_rule_amended_witness :
    matchArticle (pyLower (pyStrip ("a slice".toList))) = some ("slice".toList) ∧
    normalize_quantity_and_name ("x".toList) (some ("a slice".toList))
      = ("x".toList, "1 slice".toList) ∧
    normalize_quantity_and_name ("x".toList) (some ("An Apple".toList))
      = ("x".toList, "1 apple".toList) :=
  ⟨by decide,
   by
    rw [c3_article_rule_amended ("x".toList) (some ("a slice".toList))
      ("slice".toList) (by decide) (by decide)]
    decide,
   by
    rw [c3_article_rule_amended ("x".toList) (some ("An Apple".toList))
      ("apple".toList) (by decide) (by decide)]
    decide⟩

/-! Claim C6: when neither rule matches, the pair passes through with both
components trimmed. -/

/-- C6: if the stripped lower-cased quantity matches neither the article
regex nor contains "half" or "quarter", the normalizer returns the pair
unchanged up to whitespace trimming, treating an absent quantity as the
empty string. -/
theorem c6_passthrough (name : List Char) (qty? : Option (List Char))
    (h1 : matchArticle (pyLower (pyStrip (qty?.getD []))) = none)
    (h2 : isSubstr halfL (pyLower (pyStrip (qty?.getD []))) = false)
    (h3 : isSubstr quarterL (pyLower (pyStrip (qty?.getD []))) = false) :
    normalize_quantity_and_name name qty? = (pyStrip name, pyStrip (qty?.getD [])) := by
  have ha : articleStage (pyStrip (qty?.getD [])) = pyStrip (qty?.getD []) := by
    unfold articleStage; rw [h1]
  unfold normalize_quantity_and_name fracStage
  rw [ha, h2, h3, show (false || false) = false from rfl,
    if_neg (by decide : ¬ (false = true)), pyStrip_idem]

/-- C6 witness: name "Tomato " and quantity " 2 slices " pass through as
"Tomato" and "2 slices". -/
theorem c6_passthrough_witness :
    matchArticle (pyLower (pyStrip ((" 2 slices ".toList)))) = none ∧
    normalize_quantity_and_name ("Tomato ".toList) (some (" 2 slices ".toList))
      = ("Tomato".toList, "2 slices".toList) :=
  ⟨by decide, by
    rw [c6_passthrough ("Tomato ".toList) (some (" 2 slices ".toList))
      (by decide) (by decide) (by decide)]
    decide⟩

/-! Helper lemmas: the merge loop. -/

theorem updateKey_cons (k : List Char) (p a : List Char × List Char)
    (t : List (List Char × List Char)) :
    updateKey k p (a :: t) =
      (if keyOf a = k then (if a.2 = [] ∧ p.2 ≠ [] then p else a) :: t
       else a :: updateKey k p t) := rfl

theorem chosenFrom_cons (cur a : List Char × List Char)
    (t : List (List Char × List Char)) :
    chosenFrom cur (a :: t) =
      (if keyOf a = keyOf cur ∧ cur.2 = [] ∧ a.2 ≠ [] then chosenFrom a t
       else chosenFrom cur t) := rfl

theorem chosen_cons (k : List Char) (a : List Char × List Char)
    (t : List (List Char × List Char)) :
    chosen k (a :: t) =
      (if keyOf a = k then some (chosenFrom a t) else chosen k t) := rfl

theorem find?_updateKey_self (k : List Char) (p q : List Char × List Char)
    (l : List (List Char × List Char)) (hk : keyOf p = k)
    (h : l.find? (fun q' => decide (keyOf q' = k)) = some q) :
    (updateKey k p l).find? (fun q' => decide (keyOf q' = k))
      = some (if q.2 = [] ∧ p.2 ≠ [] then p else q) := by
  induction l with
  | nil => exact Option.noConfusion h
  | cons a t ih =>
    rw [updateKey_cons]
    by_cases ha : keyOf a = k
    · rw [List.find?_cons, decide_eq_true ha] at h
      obtain rfl : a = q := Option.some.inj h
      rw [if_pos ha]
      by_cases hc : a.2 = [] ∧ p.2 ≠ []
      · rw [if_pos hc, List.find?_cons, decide_eq_true hk]
      · rw [if_neg hc, List.find?_cons, decide_eq_true ha]
    · have h' : t.find? (fun q' => decide (keyOf q' = k)) = some q := by
        rw [List.find?_cons, decide_eq_false ha] at h
        exact h
      rw [if_neg ha, List.find?_cons, decide_eq_false ha]
      exact ih h'

theorem find?_updateKey_ne (k k' : List Char) (p : List Char × List Char)
    (l : List (List Char × List Char)) (hk : keyOf p = k) (hne : k' ≠ k) :
    (updateKey k p l).find? (fun q' => decide (keyOf q' = k'))
      = l.find? (fun q' => decide (keyOf q' = k')) := by
  induction l with
  | nil => rfl
  | cons a t ih =>
    rw [updateKey_cons]
    by_cases ha : keyOf a = k
    · have h1 : decide (keyOf a = k') = false :=
        decide_eq_false (fun h0 => hne (h0 ▸ ha))
      have h2 : decide (keyOf p = k') = false :=
        decide_eq_false (fun h0 => hne (h0 ▸ hk))
      rw [if_pos ha]
      by_cases hc : a.2 = [] ∧ p.2 ≠ []
      · rw [if_pos hc, List.find?_cons, h2, List.find?_cons, h1]
      · rw [if_neg hc]
    · rw [if_neg ha, List.find?_cons, List.find?_cons]
      cases hd : decide (keyOf a = k') with
      | true => rfl
      | false => exact ih

theorem keyOf_chosenFrom (t : List (List Char × List Char)) :
    ∀ cur, keyOf (chosenFrom cur t) = keyOf cur := by
  induction t with
  | nil => exact fun cur => rfl
  | cons a t ih =>
    intro cur
    rw [chosenFrom_cons]
    by_cases hc : keyOf a = keyOf cur ∧ cur.2 = [] ∧ a.2 ≠ []
    · rw [if_pos hc, ih a]
      exact hc.1
    · rw [if_neg hc]
      exact ih cur

theorem chosenFrom_append (t : List (List Char × List Char)) :
    ∀ cur p, chosenFrom cur (t ++ [p]) =
      (if keyOf p = keyOf cur ∧ (chosenFrom cur t).2 = [] ∧ p.2 ≠ [] then p
       else chosenFrom cur t) := by
  induction t with
  | nil =>
    intro cur p
    show chosenFrom cur [p]
      = if keyOf p = keyOf cur ∧ cur.2 = [] ∧ p.2 ≠ [] then p else cur
    rw [chosenFrom_cons]
    by_cases hc : keyOf p = keyOf cur ∧ cur.2 = [] ∧ p.2 ≠ []
    · rw [if_pos hc, if_pos hc]
      rfl
    · rw [if_neg hc, if_neg hc]
      rfl
  | cons a t ih =>
    intro cur p
    rw [List.cons_append, chosenFrom_cons, chosenFrom_cons]
    by_cases ha : keyOf a = keyOf cur ∧ cur.2 = [] ∧ a.2 ≠ []
    · rw [if_pos ha, if_pos ha, ih a, ha.1]
    · rw [if_neg ha, if_neg ha, ih cur]

theorem chosen_append (k : List Char) (l : List (List Char × List Char))
    (p : List Char × List Char) :
    chosen k (l ++ [p]) =
      (match chosen k l with
       | some c => some (if keyOf p = k ∧ c.2 = [] ∧ p.2 ≠ [] then p else c)
       | none => if keyOf p = k then some p else none) := by
  induction l with
  | nil =>
    show chosen k [p] = if keyOf p = k then some p else none
    rw [chosen_cons]
    by_cases hp : keyOf p = k
    · rw [if_pos hp, if_pos hp]
      rfl
    · rw [if_neg hp, if_neg hp]
      rfl
  | cons a t ih =>
    rw [List.cons_append, chosen_cons, chosen_cons]
    by_cases ha : keyOf a = k
    · rw [if_pos ha, if_pos ha]
      show some (chosenFrom a (t ++ [p]))
        = some (if keyOf p = k ∧ (chosenFrom a t).2 = [] ∧ p.2 ≠ [] then p
                else chosenFrom a t)
      rw [chosenFrom_append, ha]
    · rw [if_neg ha, if_neg ha, ih]

theorem mergeStep_find? (acc processed : List (List Char × List Char))
    (p : List Char × List Char)
    (hinv : ∀ k, acc.find? (fun q => decide (keyOf q = k)) = chosen k processed) :
    ∀ k, (mergeStep acc p).find? (fun q => decide (keyOf q = k))
      = chosen k (processed ++ [p]) := by
  intro k
  rw [chosen_append]
  unfold mergeStep
  cases hf : acc.find? (fun q => decide (keyOf q = keyOf p)) with
  | none =>
    rw [List.find?_append, hinv k]
    by_cases hk : keyOf p = k
    · have h0 : chosen k processed = none := by
        rw [← hk, ← hinv (keyOf p)]
        exact hf
      rw [h0, List.find?_cons, decide_eq_true hk, if_pos hk]
      rfl
    · cases hc : chosen k processed with
      | some c =>
        show (some c).or (List.find? (fun q => decide (keyOf q = k)) [p])
          = some (if keyOf p = k ∧ c.2 = [] ∧ p.2 ≠ [] then p else c)
        rw [if_neg (fun hcon => hk hcon.1)]
        rfl
      | none =>
        rw [List.find?_cons, decide_eq_false hk, if_neg hk]
        rfl
  | some q0 =>
    by_cases hk : k = keyOf p
    · subst hk
      rw [find?_updateKey_self (keyOf p) p q0 acc rfl hf]
      have h0 : chosen (keyOf p) processed = some q0 := by
        rw [← hinv (keyOf p)]
        exact hf
      rw [h0]
      show some (if q0.2 = [] ∧ p.2 ≠ [] then p else q0)
        = some (if keyOf p = keyOf p ∧ q0.2 = [] ∧ p.2 ≠ [] then p else q0)
      by_cases hq : q0.2 = [] ∧ p.2 ≠ []
      · rw [if_pos hq, if_pos ⟨rfl, hq⟩]
      · rw [if_neg hq, if_neg (fun hcon => hq hcon.2)]
    · rw [find?_updateKey_ne (keyOf p) k p acc rfl hk, hinv k]
      cases hc : chosen k processed with
      | some c =>
        show some c = some (if keyOf p = k ∧ c.2 = [] ∧ p.2 ≠ [] then p else c)
        rw [if_neg (fun hcon => hk hcon.1.symm)]
      | none =>
        show none = if keyOf p = k then some p else none
        rw [if_neg (fun hcon => hk hcon.symm)]

theorem foldl_mergeStep_find? (ps : List (List Char × List Char)) :
    ∀ (acc processed : List (List Char × List Char)),
      (∀ k, acc.find? (fun q => decide (keyOf q = k)) = chosen k processed) →
      ∀ k, (ps.foldl mergeStep acc).find? (fun q => decide (keyOf q = k))
        = chosen k (processed ++ ps) := by
  induction ps with
  | nil =>
    intro acc processed hinv k
    rw [List.append_nil]
    exact hinv k
  | cons p ps ih =>
    intro acc processed hinv k
    rw [List.foldl_cons,
      ih (mergeStep acc p) (processed ++ [p]) (mergeStep_find? acc processed p hinv) k,
      List.append_assoc]
    rfl

/-- The fold of the merge loop agrees, key by key, with the declarative
per-key rule `chosen`. -/
theorem mergeAll_find? (ps : List (List Char × List Char)) (k : List Char) :
    (mergeAll ps).find? (fun q => decide (keyOf q = k)) = chosen k ps := by
  have h := foldl_mergeStep_find? ps [] [] (fun k => rfl) k
  rw [List.nil_append] at h
  exact h

theorem map_keyOf_updateKey (k : List Char) (p : List Char × List Char)
    (l : List (List Char × List Char)) (hk : keyOf p = k) :
    (updateKey k p l).map keyOf = l.map keyOf := by
  induction l with
  | nil => rfl
  | cons a t ih =>
    rw [updateKey_cons]
    by_cases ha : keyOf a = k
    · rw [if_pos ha, List.map_cons, List.map_cons]
      by_cases hc : a.2 = [] ∧ p.2 ≠ []
      · rw [if_pos hc, hk, ha]
      · rw [if_neg hc]
    · rw [if_neg ha, List.map_cons, List.map_cons, ih]

theorem keyOf_mem_of_find?_some (acc : List (List Char × List Char))
    (k : List Char) (q : List Char × List Char)
    (h : acc.find? (fun q' => decide (keyOf q' = k)) = some q) :
    k ∈ acc.map keyOf := by
  have hq := List.find?_some h
  rw [decide_eq_true_eq] at hq
  exact hq ▸ List.mem_map_of_mem keyOf (List.mem_of_find?_eq_some h)

theorem not_mem_of_find?_none (acc : List (List Char × List Char)) (k : List Char)
    (h : acc.find? (fun q' => decide (keyOf q' = k)) = none) :
    k ∉ acc.map keyOf := by
  intro hmem
  obtain ⟨q, hqmem, hqk⟩ := List.mem_map.mp hmem
  exact (List.find?_eq_none.mp h q hqmem) (decide_eq_true hqk)

theorem map_keyOf_mergeStep (acc : List (List Char × List Char))
    (p : List Char × List Char) :
    (mergeStep acc p).map keyOf = seenFold (acc.map keyOf) (keyOf p) := by
  unfold mergeStep seenFold
  cases hf : acc.find? (fun q => decide (keyOf q = keyOf p)) with
  | some q =>
    rw [map_keyOf_updateKey (keyOf p) p acc rfl,
      if_pos (keyOf_mem_of_find?_some acc (keyOf p) q hf)]
  | none =>
    rw [List.map_append, if_neg (not_mem_of_find?_none acc (keyOf p) hf)]
    rfl

theorem foldl_mergeStep_keys (ps : List (List Char × List Char)) :
    ∀ acc, (ps.foldl mergeStep acc).map keyOf
      = (ps.map keyOf).foldl seenFold (acc.map keyOf) := by
  induction ps with
  | nil => exact fun acc => rfl
  | cons p ps ih =>
    intro acc
    rw [List.foldl_cons, List.map_cons, List.foldl_cons, ih, map_keyOf_mergeStep]

/-- The merged keys are the distinct input keys in first-seen order. -/
theorem mergeAll_keys (ps : List (List Char × List Char)) :
    (mergeAll ps).map keyOf = firstKeys (ps.map keyOf) :=
  foldl_mergeStep_keys ps []

theorem seenFold_foldl_nodup (l : List (List Char)) :
    ∀ acc, acc.Nodup → (l.foldl seenFold acc).Nodup := by
  induction l with
  | nil => exact fun acc h => h
  | cons k t ih =>
    intro acc hacc
    rw [List.foldl_cons]
    apply ih
    unfold seenFold
    by_cases hk : k ∈ acc
    · rw [if_pos hk]
      exact hacc
    · rw [if_neg hk, List.nodup_append]
      refine ⟨hacc, List.nodup_singleton k, ?_⟩
      intro a ha hb
      rw [List.mem_singleton] at hb
      subst hb
      exact hk ha

theorem firstKeys_nodup (l : List (List Char)) : (firstKeys l).Nodup :=
  seenFold_foldl_nodup l [] List.nodup_nil

theorem mem_updateKey (k : List Char) (p q : List Char × List Char)
    (l : List (List Char × List Char)) (h : q ∈ updateKey k p l) :
    q ∈ l ∨ q = p := by
  induction l with
  | nil => exact absurd h (List.not_mem_nil q)
  | cons a t ih =>
    rw [updateKey_cons] at h
    by_cases ha : keyOf a = k
    · rw [if_pos ha] at h
      rcases List.mem_cons.mp h with h1 | h1
      · by_cases hc : a.2 = [] ∧ p.2 ≠ []
        · rw [if_pos hc] at h1
          exact Or.inr h1
        · rw [if_neg hc] at h1
          exact Or.inl (h1 ▸ List.mem_cons_self a t)
      · exact Or.inl (List.mem_cons_of_mem a h1)
    · rw [if_neg ha] at h
      rcases List.mem_cons.mp h with h1 | h1
      · exact Or.inl (h1 ▸ List.mem_cons_self a t)
      · rcases ih h1 with h2 | h2
        · exact Or.inl (List.mem_cons_of_mem a h2)
        · exact Or.inr h2

theorem mem_mergeStep (acc : List (List Char × List Char))
    (p q : List Char × List Char) (h : q ∈ mergeStep acc p) :
    q ∈ acc ∨ q = p := by
  unfold mergeStep at h
  cases hf : acc.find? (fun q' => decide (keyOf q' = keyOf p)) with
  | some q0 =>
    rw [hf] at h
    exact mem_updateKey (keyOf p) p q acc h
  | none =>
    rw [hf] at h
    rcases List.mem_append.mp h with h1 | h1
    · exact Or.inl h1
    · exact Or.inr (List.mem_singleton.mp h1)

theorem mem_foldl_mergeStep (ps : List (List Char × List Char)) :
    ∀ acc q, q ∈ ps.foldl mergeStep acc → q ∈ acc ∨ q ∈ ps := by
  induction ps with
  | nil => exact fun acc q h => Or.inl h
  | cons p ps ih =>
    intro acc q h
    rw [List.foldl_cons] at h
    rcases ih (mergeStep acc p) q h with h1 | h1
    · rcases mem_mergeStep acc p q h1 with h2 | h2
      · exact Or.inl h2
      · exact Or.inr (h2 ▸ List.mem_cons_self p ps)
    · exact Or.inr (List.mem_cons_of_mem p h1)

theorem mem_mergeAll (ps : List (List Char × List Char))
    (q : List Char × List Char) (h : q ∈ mergeAll ps) : q ∈ ps := by
  rcases mem_foldl_mergeStep ps [] q h with h1 | h1
  · exact absurd h1 (List.not_mem_nil q)
  · exact h1

theorem normalize_name_ne_nil (n : List Char) (qty? : Option (List Char))
    (h : pyStrip n ≠ []) : (normalize_quantity_and_name n qty?).1 ≠ [] := by
  unfold normalize_quantity_and_name fracStage
  by_cases hc : (isSubstr halfL (pyLower (articleStage (pyStrip (qty?.getD [])))) ||
      isSubstr quarterL (pyLower (articleStage (pyStrip (qty?.getD []))))) = true
  · rw [if_pos hc]
    cases hfs : fracSearch (pyLower (articleStage (pyStrip (qty?.getD [])))) with
    | some r =>
      simp only [hfs]
      by_cases ht : (isSubstr toastL (pyLower n) && isSubstr r (pyLower n)) = true
      · rw [if_pos ht]
        show pyStrip r ≠ []
        rw [fracSearch_no_space _ _ hfs]
        exact (fracSearch_spec _ _ hfs).1
      · rw [if_neg ht]
        exact h
    | none =>
      simp only [hfs]
      exact h
  · rw [if_neg hc]
    exact h

/-! Claim C4: the dedup rule.  The fold over the insertion-ordered map
agrees with the claim's per-key description (`chosen`), and the concrete
Tomato/tomato example merges as claimed. -/

/-- C4: deduplication folds left to right keyed by the lower-cased trimmed
name; the entry stored for a key is its first occurrence, replaced by a
later occurrence exactly when the stored quantity is empty and the new one
is non-empty.  In particular ("Tomato", "") followed by
("tomato", "2 slices") merges to the single entry ("tomato", "2 slices"). -/
theorem c4_dedup_rule :
    (∀ (ps : List (List Char × List Char)) (k : List Char),
      (mergeAll ps).find? (fun q => decide (keyOf q = k)) = chosen k ps) ∧
    mergeAll [("Tomato".toList, []), ("tomato".toList, "2 slices".toList)]
      = [("tomato".toList, "2 slices".toList)] :=
  ⟨mergeAll_find?, by decide⟩

/-! Claim C5: output order is first-seen key order. -/

/-- C5: the deduplicated output lists keys in the order in which the
distinct lower-cased trimmed names were first seen, independent of any
replacement of stored values. -/
theorem c5_first_seen_order (ps : List (List Char × List Char)) :
    (mergeAll ps).map keyOf = firstKeys (ps.map keyOf) :=
  mergeAll_keys ps

/-! Claim C9: output names are pairwise distinct case-insensitively. -/

/-- C9: no two entries of a `parse_ingredients` result have names that are
equal after trimming and lower-casing. -/
theorem c9_names_pairwise_distinct (items : List RawItem) :
    List.Pairwise (fun p q : List Char × List Char =>
      pyLower (pyStrip p.1) ≠ pyLower (pyStrip q.1)) (parse_ingredients items) := by
  have h1 : ((parse_ingredients items).map keyOf).Nodup := by
    unfold parse_ingredients
    rw [mergeAll_keys]
    exact firstKeys_nodup _
  exact List.pairwise_map.mp h1

/-! Claim C10: name-dropping.  Items with a falsy name are dropped and
dict fields are unwrapped; but a whitespace-only name survives the
falsiness check and trims to an empty output name, so the claimed
invariant "every output name is non-empty" fails. -/

/-- C10 counterexample: an item whose extracted name is the one-space
string " " is kept (it is truthy in Python), and the resulting entry's
name is empty after trimming. -/
theorem c10_counterexample :
    parse_ingredients [⟨RawField.strv [' '], RawField.absent⟩] = [([], [])] ∧
    ¬ (∀ p ∈ parse_ingredients [⟨RawField.strv [' '], RawField.absent⟩],
        p.1 ≠ ([] : List Char)) := by
  refine ⟨by decide, ?_⟩
  decide

/-- C10 amended: items whose name field is missing, `None`, or the empty
string are silently dropped; dict-valued fields are unwrapped through
their "text" entry; and every entry of the result has a non-empty name
provided every present raw name string that is non-empty also has a
non-whitespace character (a whitespace-only raw name instead yields an
entry whose name is empty). -/
theorem c10_drop_and_nonempty_amended :
    (∀ (it : RawItem) (rest : List RawItem),
      (fieldText it.nameF = none ∨ fieldText it.nameF = some []) →
      parse_ingredients (it :: rest) = parse_ingredients rest) ∧
    (∀ (s : List Char) (qf : RawField),
      processItem ⟨RawField.dictv (some s), qf⟩ = processItem ⟨RawField.strv s, qf⟩) ∧
    (∀ (items : List RawItem),
      (∀ it ∈ items, ∀ s, fieldText it.nameF = some s → s ≠ [] → pyStrip s ≠ []) →
      ∀ p ∈ parse_ingredients items, p.1 ≠ []) := by
  refine ⟨?_, ?_, ?_⟩
  · intro it rest h
    have hpi : processItem it = none := by
      unfold processItem
      rcases h with h | h
      · rw [h]
      · rw [h]
        rfl
    unfold parse_ingredients
    rw [List.filterMap_cons_none hpi]
  · intro s qf
    rfl
  · intro items hyp p hp
    unfold parse_ingredients at hp
    have hp2 := mem_mergeAll _ _ hp
    obtain ⟨it, hit, hpi⟩ := List.mem_filterMap.mp hp2
    unfold processItem at hpi
    cases hft : fieldText it.nameF with
    | none =>
      rw [hft] at hpi
      exact Option.noConfusion hpi
    | some s =>
      rw [hft] at hpi
      have hpi' : (if s = [] then none
          else some (normalize_quantity_and_name (pyStrip s) (fieldText it.qtyF)))
          = some p := hpi
      by_cases hs : s = []
      · rw [if_pos hs] at hpi'
        exact Option.noConfusion hpi'
      · rw [if_neg hs] at hpi'
        obtain rfl : _ = p := Option.some.inj hpi'
        apply normalize_name_ne_nil
        rw [pyStrip_idem]
        exact hyp it hit s hft hs

/-- C10 amended witness: dropping an empty-string name and keeping a
non-empty one whose strip is non-empty. -/
theorem c10_drop_and_nonempty_amended_witness :
    (fieldText (RawField.strv []) = none ∨ fieldText (RawField.strv []) = some []) ∧
    parse_ingredients [⟨RawField.strv [], RawField.absent⟩,
        ⟨RawField.strv ("Egg".toList), RawField.absent⟩]
      = parse_ingredients [⟨RawField.strv ("Egg".toList), RawField.absent⟩] ∧
    (∀ p ∈ parse_ingredients [⟨RawField.strv ("Egg".toList), RawField.absent⟩],
      p.1 ≠ []) :=
  ⟨Or.inr rfl,
   c10_drop_and_nonempty_amended.1 ⟨RawField.strv [], RawField.absent⟩
     [⟨RawField.strv ("Egg".toList), RawField.absent⟩] (Or.inr rfl),
   c10_drop_and_nonempty_amended.2.2 [⟨RawField.strv ("Egg".toList), RawField.absent⟩]
     (by
       intro it hit s hs hne
       rw [List.mem_singleton] at hit
       subst hit
       obtain rfl : _ = s := Option.some.inj hs
       decide)⟩

/-! Claims C7 and C8: the `/parse` route. -/

/-- C7: a JSON object body without a "text" key is answered with
HTTP 400 and the body `{"error": "missing 'text' in JSON body"}`. -/
theorem c7_missing_text (d : List (List Char × List Char))
    (loadRes : Except (List Char) Unit)
    (extractRes : Except (List Char) (List RawItem))
    (h : hasTextKey d = false) :
    parse_route (some d) loadRes extractRes
      = ⟨400, RespBody.errMsg missingTextMsg⟩ := by
  simp [parse_route, h]

/-- C7 witness: a body with only a "foo" key gets the 400 response. -/
theorem c7_missing_text_witness :
    hasTextKey [("foo".toList, "bar".toList)] = false ∧
    parse_route (some [("foo".toList, "bar".toList)]) (Except.ok ()) (Except.ok [])
      = ⟨400, RespBody.errMsg missingTextMsg⟩ :=
  ⟨by decide, c7_missing_text [("foo".toList, "bar".toList)] (Except.ok ())
    (Except.ok []) (by decide)⟩

/-- C8: with a "text" key present, a failed extractor load is answered
with HTTP 500 carrying the load error message; a failed extraction with
HTTP 500 carrying "parse failed: " plus the message; and a successful
extraction with HTTP 200 and the parsed ingredient list. -/
theorem c8_backend_outcomes (d : List (List Char × List Char))
    (h : hasTextKey d = true) :
    (∀ (e : List Char) (extractRes : Except (List Char) (List RawItem)),
      parse_route (some d) (Except.error e) extractRes
        = ⟨500, RespBody.errMsg e⟩) ∧
    (∀ e : List Char,
      parse_route (some d) (Except.ok ()) (Except.error e)
        = ⟨500, RespBody.errMsg ("parse failed: ".toList ++ e)⟩) ∧
    (∀ items : List RawItem,
      parse_route (some d) (Except.ok ()) (Except.ok items)
        = ⟨200, RespBody.ingredients (parse_ingredients items)⟩) := by
  have hd : d ≠ [] := by
    intro h0
    rw [h0] at h
    exact Bool.noConfusion h
  refine ⟨fun e er => ?_, fun e => ?_, fun items => ?_⟩ <;>
    simp [parse_route, h, hd]

/-- C8 witness: all three outcomes on the one-key body `{"text": ""}`. -/
theorem c8_backend_outcomes_witness :
    hasTextKey [(textKey, [])] = true ∧
    parse_route (some [(textKey, [])]) (Except.error ("boom".toList)) (Except.ok [])
      = ⟨500, RespBody.errMsg ("boom".toList)⟩ ∧
    parse_route (some [(textKey, [])]) (Except.ok ()) (Except.error ("boom".toList))
      = ⟨500, RespBody.errMsg ("parse failed: ".toList ++ "boom".toList)⟩ ∧
    parse_route (some [(textKey, [])]) (Except.ok ()) (Except.ok [])
      = ⟨200, RespBody.ingredients (parse_ingredients [])⟩ :=
  ⟨by decide,
   (c8_backend_outcomes [(textKey, [])] (by decide)).1 ("boom".toList) (Except.ok []),
   (c8_backend_outcomes [(textKey, [])] (by decide)).2.1 ("boom".toList),
   (c8_backend_outcomes [(textKey, [])] (by decide)).2.2 []⟩

end MistClon
